import Mathlib

/-!
Shallow embedding of the word-combinatorics and 2x2-matrix core of
src/bella/cayley.py (class GroupCache and the isometric-circle samplers).

Conventions of the embedding:
* a Python word (tuple of generator indices) is a `List Nat`, read so that the
  Python tuple index 0 is the head of the list; prepending a letter
  ((x,) + word) is `x :: word`;
* the instance state of a GroupCache is passed explicitly: `n` is
  `self.length` (the number of primary generators, after the constructor has
  replaced an empty generator list by a single identity generator, so n >= 1
  for every constructed instance), `relators` is `self.relators`, and
  `generators` is the list of primary generator matrices;
* Python random.choice(l) is modelled by an arbitrary natural number `r`
  selecting index `r % l.length`; random.choice of an empty list raises
  IndexError, modelled by `Option.none`;
* matrices are a four-field structure over a field, mirroring the entrywise
  formulas of the source (mpmath / numpy 2x2 arrays).
-/

/-- Words in the group: finite tuples of generator (and inverse) indices. -/
abbrev Word := List Nat

/-- Embeds the list built on line 75 of cayley.py:
self.gen_to_inv = [r for r in itertools.chain(range(self.length, 2*self.length), range(0, self.length))]. -/
def gen_to_inv_list (n : Nat) : List Nat :=
  List.range' n n ++ List.range n

/-- Indexing into gen_to_inv, as in the source expression self.gen_to_inv[x]
for a letter x in [0, 2n). -/
def gen_to_inv (n : Nat) (x : Nat) : Nat :=
  (gen_to_inv_list n).getD x 0

/-- Embeds GroupCache.inv_word (cayley.py lines 49-51):
tuple(reversed(tuple(self.gen_to_inv[x] for x in word))). -/
def inv_word (n : Nat) (word : Word) : Word :=
  (word.map (gen_to_inv n)).reverse

/-- Embeds the working relator set built on line 76 of cayley.py:
self.relators = relators + [self.inv_word(r) for r in relators]
  + list(itertools.chain.from_iterable([(g, self.gen_to_inv[g]), (self.gen_to_inv[g], g)] for g in range(0, self.length))). -/
def relator_closure (n : Nat) (userRelators : List Word) : List Word :=
  userRelators ++ userRelators.map (inv_word n) ++
    (List.range n).flatMap (fun g => [[g, gen_to_inv n g], [gen_to_inv n g, g]])

/-- Embeds GroupCache.is_reduced_from_left (cayley.py lines 96-99):
not any(word[:len(r)] == r for r in self.relators). -/
def is_reduced_from_left (relators : List Word) (word : Word) : Bool :=
  !(relators.any (fun r => word.take r.length == r))

/-- Embeds random.choice(l): an arbitrary draw r selects index r % len(l);
random.choice of an empty list raises IndexError, modelled by none. -/
def rand_choice {α : Type} (r : Nat) : List α → Option α
  | [] => none
  | a :: l => some ((a :: l).getD (r % (a :: l).length) a)

/-- Embeds GroupCache.free_cayley_graph_locally (cayley.py lines 137-157);
rtl selects prepending (the Python default True) versus appending. -/
def free_cayley_graph_locally (n : Nat) (rtl : Bool) (word : Word) : List Word :=
  match word with
  | [] => (List.range (2*n)).map (fun w => [w])
  | h :: t =>
    if rtl then
      ((List.range (2*n)).filter (fun lab => lab != gen_to_inv n h)).map
        (fun lab => lab :: h :: t)
    else
      ((List.range (2*n)).filter (fun lab => lab != gen_to_inv n ((h :: t).getLastD 0))).map
        (fun lab => (h :: t) ++ [lab])

/-- Embeds GroupCache.cayley_graph_locally (cayley.py lines 159-172). For a
non-empty word the loop body evaluates the bare name is_reduced_from_left
(line 171), which is defined neither in the enclosing module scope nor as a
local, so iterating the generator raises NameError; this is modelled by
Except.error. The relator set is never consulted before the failure, so it is
not a parameter here. -/
def cayley_graph_locally (n : Nat) (word : Word) : Except String (List Word) :=
  match word with
  | [] => Except.ok ((List.range (2*n)).map (fun w => [w]))
  | _ :: _ => Except.error "NameError"

/-- Embeds GroupCache.free_random_walk_locally (cayley.py lines 101-118):
a single random longer neighbour in the free Cayley graph. -/
def free_random_walk_locally (n : Nat) (rtl : Bool) (r : Nat) (word : Word) : Option Word :=
  match word with
  | [] => rand_choice r ((List.range (2*n)).map (fun w => [w]))
  | h :: t =>
    if rtl then
      (rand_choice r ((List.range (2*n)).filter (fun x => x != gen_to_inv n h))).map
        (fun lab => lab :: h :: t)
    else
      (rand_choice r ((List.range (2*n)).filter (fun x => x != gen_to_inv n ((h :: t).getLastD 0)))).map
        (fun lab => (h :: t) ++ [lab])

/-- Embeds GroupCache.random_walk_locally (cayley.py lines 120-135): collect
the left extensions passing is_reduced_from_left, then random.choice among
them (none models the IndexError raised when the candidate list is empty). -/
def random_walk_locally (n : Nat) (relators : List Word) (r : Nat) (word : Word) : Option Word :=
  match word with
  | [] => rand_choice r ((List.range (2*n)).map (fun w => [w]))
  | _ :: _ =>
    rand_choice r ((List.range (2*n)).filterMap (fun x =>
      if is_reduced_from_left relators (x :: word) then some (x :: word) else none))

/-- Level k of the breadth-first walk of cayley.py lines 174-189: the value of
last_list after k iterations of the outer loop (level 0 is the seed [()]). -/
def free_cayley_graph_level (n : Nat) : Nat → List Word
  | 0 => [[]]
  | k+1 => (free_cayley_graph_level n k).flatMap (free_cayley_graph_locally n true)

/-- Embeds GroupCache.free_cayley_graph_bfs (cayley.py lines 174-189): the
words are yielded level by level, within a level in the order produced by
free_cayley_graph_locally on the previous level. -/
def free_cayley_graph_bfs (n : Nat) (depth : Nat) : List Word :=
  (List.range depth).flatMap (fun k => free_cayley_graph_level n (k+1))

/-- Inner loop of GroupCache.free_cayley_graph_mc (cayley.py lines 201-205):
one random walk of the given number of remaining steps starting at word,
consuming the draws rand k0, rand (k0+1), ...; every visited word is yielded.
A none from the underlying choice aborts the run (the Python generator would
propagate the exception). -/
def free_cayley_graph_mc_walk (n : Nat) (rtl : Bool) (rand : Nat → Nat) (word : Word)
    (k0 : Nat) : Nat → Option (List Word)
  | 0 => some []
  | s+1 => do
    let w2 ← free_random_walk_locally n rtl (rand k0) word
    let rest ← free_cayley_graph_mc_walk n rtl rand w2 (k0+1) s
    pure (w2 :: rest)

/-- Outer loop of free_cayley_graph_mc: the walks for nn in range(runs), their
yields concatenated in walk order. -/
def free_cayley_graph_mc_runs (n : Nat) (rtl : Bool) (rand : Nat → Nat)
    (depth : Nat) : Nat → Option (List Word)
  | 0 => some []
  | c+1 => do
    let prev ← free_cayley_graph_mc_runs n rtl rand depth c
    let walk ← free_cayley_graph_mc_walk n rtl rand [] (c * depth) depth
    pure (prev ++ walk)

/-- Embeds GroupCache.free_cayley_graph_mc (cayley.py lines 191-205): count
independent random walks of length depth from the empty word, each walk
yielding all the words it visits; walk nn uses the draws indexed from
nn * depth. -/
def free_cayley_graph_mc (n : Nat) (rtl : Bool) (rand : Nat → Nat)
    (depth count : Nat) : Option (List Word) :=
  free_cayley_graph_mc_runs n rtl rand depth count

/-- Inner loop of GroupCache.cayley_graph_mc (cayley.py lines 235-240): idx is
the Python loop variable n, and a word is yielded when
yield_shorter or n == depth holds, exactly as written on line 239. -/
def cayley_graph_mc_walk (n : Nat) (relators : List Word) (rand : Nat → Nat)
    (yield_shorter : Bool) (depth : Nat) (word : Word) (k0 idx : Nat) : Nat → Option (List Word)
  | 0 => some []
  | s+1 => do
    let w2 ← random_walk_locally n relators (rand (k0 + idx)) word
    let rest ← cayley_graph_mc_walk n relators rand yield_shorter depth w2 k0 (idx+1) s
    pure (if yield_shorter || idx == depth then w2 :: rest else rest)

/-- Outer loop of cayley_graph_mc: the walks for nn in range(runs), their
yields concatenated in walk order. -/
def cayley_graph_mc_runs (n : Nat) (relators : List Word) (rand : Nat → Nat)
    (depth : Nat) (yield_shorter : Bool) : Nat → Option (List Word)
  | 0 => some []
  | c+1 => do
    let prev ← cayley_graph_mc_runs n relators rand depth yield_shorter c
    let walk ← cayley_graph_mc_walk n relators rand yield_shorter depth [] (c * depth) 0 depth
    pure (prev ++ walk)

/-- Embeds GroupCache.cayley_graph_mc (cayley.py lines 224-240): count random
walks on the relator-aware Cayley graph, walk nn using the draws indexed from
nn * depth. -/
def cayley_graph_mc (n : Nat) (relators : List Word) (rand : Nat → Nat)
    (depth count : Nat) (yield_shorter : Bool) : Option (List Word) :=
  cayley_graph_mc_runs n relators rand depth yield_shorter count

/-- A 2x2 matrix with entries listed row-major: a b / c d. -/
@[ext]
structure Mat2 (K : Type) where
  a : K
  b : K
  c : K
  d : K
deriving DecidableEq

/-- Entrywise product of 2x2 matrices (the matmul operator of the source). -/
instance {K : Type} [CommRing K] : Mul (Mat2 K) :=
  ⟨fun M N => ⟨M.a * N.a + M.b * N.c, M.a * N.b + M.b * N.d,
               M.c * N.a + M.d * N.c, M.c * N.b + M.d * N.d⟩⟩

/-- The 2x2 identity matrix, as built on line 88 of cayley.py. -/
instance {K : Type} [CommRing K] : One (Mat2 K) :=
  ⟨⟨1, 0, 0, 1⟩⟩

/-- Embeds simple_det (cayley.py lines 15-16). -/
def simple_det {K : Type} [CommRing K] (M : Mat2 K) : K :=
  M.a * M.d - M.b * M.c

/-- Embeds simple_inv (cayley.py lines 18-25):
1/(ad - bc) * [[d, -b], [-c, a]]. -/
def simple_inv {K : Type} [Field K] (M : Mat2 K) : Mat2 K :=
  ⟨1 / simple_det M * M.d, 1 / simple_det M * (-M.b),
   1 / simple_det M * (-M.c), 1 / simple_det M * M.a⟩

/-- The combined generator list self.generators = generators + inverses built
on lines 73-74 of cayley.py. -/
def all_generators {K : Type} [Field K] (generators : List (Mat2 K)) : List (Mat2 K) :=
  generators ++ generators.map simple_inv

/-- Embeds GroupCache.__getitem__ (cayley.py lines 84-90): the empty word maps
to the identity, otherwise self.generators[word[0]] @ self[word[1:]]. Indexing
is getD with default 1; every letter of a valid word is below 2n, where the
default is never used. -/
def evaluate {K : Type} [Field K] (generators : List (Mat2 K)) : Word → Mat2 K
  | [] => 1
  | x :: w => (all_generators generators).getD x 1 * evaluate generators w

/-- Embeds GroupCache.isometric_circle (cayley.py lines 290-300): none models
the infinite sentinel (mp.inf, mp.inf) returned when the lower-left entry is
zero; otherwise the pair (centre, radius) = (-d/c, fabs(1/c)). The entries
live in a linear ordered field so that the magnitude fabs is available. -/
def isometric_circle {K : Type} [LinearOrderedField K] (generators : List (Mat2 K))
    (word : Word) : Option (K × K) :=
  let m := evaluate generators word
  if m.c = 0 then none
  else some (-m.d / m.c, |1 / m.c|)

/-- Embeds the record generators of coloured_isometric_circles_mc and
coloured_isometric_circles_bfs (cayley.py lines 302-337) applied to a word
sequence ws produced upstream: words whose isometric circle is the infinite
sentinel are skipped (the continue on line 317), the rest contribute the
record (centre, radius, first letter). -/
def coloured_isometric_circles {K : Type} [LinearOrderedField K]
    (generators : List (Mat2 K)) (ws : List Word) : List (K × K × Nat) :=
  ws.filterMap (fun w =>
    (isometric_circle generators w).map (fun cr => (cr.1, cr.2, w.headD 0)))

/-- The generator matrix [[2, 0], [0, 0.5]] of the concrete scenario of the
specification, over the rationals. -/
def scaling_generator : Mat2 ℚ := ⟨2, 0, 0, 1/2⟩

/-- A sample generator list over the rationals (one generator of determinant
one), used to instantiate the algebraic theorems on a concrete group. -/
def sample_generators : List (Mat2 ℚ) := [⟨0, 1, -1, 0⟩]

/-!
Theorems. Helper lemmas come first, then one theorem per claim of the
specification, each with its witness or counterexample instantiation.
-/

@[simp] theorem Mat2.mul_a {K : Type} [CommRing K] (M N : Mat2 K) :
    (M * N).a = M.a * N.a + M.b * N.c := rfl

@[simp] theorem Mat2.mul_b {K : Type} [CommRing K] (M N : Mat2 K) :
    (M * N).b = M.a * N.b + M.b * N.d := rfl

@[simp] theorem Mat2.mul_c {K : Type} [CommRing K] (M N : Mat2 K) :
    (M * N).c = M.c * N.a + M.d * N.c := rfl

@[simp] theorem Mat2.mul_d {K : Type} [CommRing K] (M N : Mat2 K) :
    (M * N).d = M.c * N.b + M.d * N.d := rfl

@[simp] theorem Mat2.one_a {K : Type} [CommRing K] : (1 : Mat2 K).a = 1 := rfl

@[simp] theorem Mat2.one_b {K : Type} [CommRing K] : (1 : Mat2 K).b = 0 := rfl

@[simp] theorem Mat2.one_c {K : Type} [CommRing K] : (1 : Mat2 K).c = 0 := rfl

@[simp] theorem Mat2.one_d {K : Type} [CommRing K] : (1 : Mat2 K).d = 1 := rfl

theorem Mat2.eq_iff {K : Type} (M N : Mat2 K) :
    M = N ↔ M.a = N.a ∧ M.b = N.b ∧ M.c = N.c ∧ M.d = N.d := by
  constructor
  · intro h; subst h; exact ⟨rfl, rfl, rfl, rfl⟩
  · intro h; cases M; cases N; simp_all

theorem gen_to_inv_eq {n x : Nat} (hx : x < 2 * n) :
    gen_to_inv n x = if x < n then x + n else x - n := by
  unfold gen_to_inv gen_to_inv_list
  by_cases h : x < n
  · rw [List.getD_append _ _ _ _ (by simpa using h),
      List.getD_eq_getElem _ _ (by simpa using h)]
    simp [List.getElem_range', h]
    omega
  · rw [List.getD_append_right _ _ _ _ (by simpa using h),
      List.getD_eq_getElem _ _ (by simp; omega)]
    simp [h]

theorem gen_to_inv_lt {n x : Nat} (hx : x < 2 * n) : gen_to_inv n x < 2 * n := by
  rw [gen_to_inv_eq hx]; split <;> omega

theorem gen_to_inv_invol {n x : Nat} (hx : x < 2 * n) :
    gen_to_inv n (gen_to_inv n x) = x := by
  rw [gen_to_inv_eq hx]
  by_cases h : x < n
  · rw [if_pos h, gen_to_inv_eq (by omega)]
    simp
  · rw [if_neg h, gen_to_inv_eq (by omega)]
    simp only [if_pos (by omega : x - n < n)]
    omega

theorem gen_to_inv_ne_self {n x : Nat} (hn : 1 ≤ n) (hx : x < 2 * n) :
    gen_to_inv n x ≠ x := by
  rw [gen_to_inv_eq hx]; split <;> omega

/-- C5: the inverse-letter map is a total involution on the 2n-letter
alphabet (inv (inv x) = x for every letter x below 2n), and consequently word
inversion is an involution: inv_word (inv_word w) = w for every word over the
alphabet. -/
theorem inv_involution (n x : Nat) (hx : x < 2 * n) (w : Word)
    (hw : ∀ y ∈ w, y < 2 * n) :
    gen_to_inv n (gen_to_inv n x) = x ∧ inv_word n (inv_word n w) = w := by
  refine ⟨gen_to_inv_invol hx, ?_⟩
  unfold inv_word
  rw [List.map_reverse, List.reverse_reverse, List.map_map]
  calc w.map (gen_to_inv n ∘ gen_to_inv n) = w.map id := by
        refine List.map_congr_left ?_
        intro y hy
        exact gen_to_inv_invol (hw y hy)
    _ = w := List.map_id w

/-- Witness for C5, on the alphabet of a two-generator group. -/
theorem inv_involution_witness :
    gen_to_inv 2 (gen_to_inv 2 3) = 3 ∧ inv_word 2 (inv_word 2 [0, 3, 1]) = [0, 3, 1] :=
  inv_involution 2 3 (by decide) [0, 3, 1] (by decide)

/-- C8: for any GroupCache (any user relator list) the working relator set
contains the trivial backtrack pair (g, inv g) for every letter g below 2n,
and hence is_reduced_from_left rejects every word beginning with such a
pair. -/
theorem trivial_backtrack_relators (n : Nat) (userRelators : List Word) (g : Nat)
    (hg : g < 2 * n) (rest : Word) :
    [g, gen_to_inv n g] ∈ relator_closure n userRelators ∧
    is_reduced_from_left (relator_closure n userRelators)
      (g :: gen_to_inv n g :: rest) = false := by
  have hmem : [g, gen_to_inv n g] ∈ relator_closure n userRelators := by
    unfold relator_closure
    rw [List.append_assoc]
    refine List.mem_append.2 (Or.inr (List.mem_append.2 (Or.inr ?_)))
    refine List.mem_flatMap.2 ?_
    by_cases h : g < n
    · exact ⟨g, List.mem_range.2 h, by simp⟩
    · refine ⟨g - n, List.mem_range.2 (by omega), ?_⟩
      have h1 : gen_to_inv n (g - n) = g := by
        rw [gen_to_inv_eq (by omega)]
        simp only [if_pos (by omega : g - n < n)]
        omega
      have h2 : gen_to_inv n g = g - n := by
        rw [gen_to_inv_eq hg, if_neg h]
      rw [h1, h2]
      simp
  refine ⟨hmem, ?_⟩
  have hany : (relator_closure n userRelators).any
      (fun r => (g :: gen_to_inv n g :: rest).take r.length == r) = true := by
    refine List.any_eq_true.2 ⟨[g, gen_to_inv n g], hmem, ?_⟩
    simp
  simp [is_reduced_from_left, hany]

/-- Witness for C8: the trivial backtrack pair of the inverse letter 1 in the
one-generator group with no user relators. -/
theorem trivial_backtrack_relators_witness :
    [1, gen_to_inv 1 1] ∈ relator_closure 1 [] ∧
    is_reduced_from_left (relator_closure 1 []) (1 :: gen_to_inv 1 1 :: [0]) = false :=
  trivial_backtrack_relators 1 [] 1 (by decide) [0]

theorem filter_ne_range_length {m a : Nat} (ha : a < m) :
    ((List.range m).filter (fun x => x != a)).length = m - 1 := by
  rw [← List.Nodup.erase_eq_filter (List.nodup_range m) a,
    List.length_erase_of_mem (List.mem_range.2 ha), List.length_range]

theorem free_locally_cons_eq {n h : Nat} (t : Word) :
    free_cayley_graph_locally n true (h :: t) =
      ((List.range (2 * n)).filter (fun lab => lab != gen_to_inv n h)).map
        (fun lab => lab :: h :: t) := rfl

theorem free_locally_cons_mem {n h : Nat} {t u : Word} :
    u ∈ free_cayley_graph_locally n true (h :: t) ↔
      ∃ x, x < 2 * n ∧ x ≠ gen_to_inv n h ∧ u = x :: h :: t := by
  simp only [free_cayley_graph_locally, if_pos, List.mem_map, List.mem_filter,
    List.mem_range, bne_iff_ne, ne_eq]
  constructor
  · rintro ⟨x, ⟨hx, hne⟩, rfl⟩
    exact ⟨x, hx, hne, rfl⟩
  · rintro ⟨x, hx, hne, rfl⟩
    exact ⟨x, ⟨hx, hne⟩, rfl⟩

theorem free_locally_cons_length {n h : Nat} (t : Word) (hh : h < 2 * n) :
    (free_cayley_graph_locally n true (h :: t)).length = 2 * n - 1 := by
  rw [free_locally_cons_eq, List.length_map]
  exact filter_ne_range_length (gen_to_inv_lt hh)

theorem free_locally_cons_nodup {n h : Nat} (t : Word) :
    (free_cayley_graph_locally n true (h :: t)).Nodup := by
  rw [free_locally_cons_eq]
  refine List.Nodup.map ?_ ((List.nodup_range (2 * n)).filter _)
  intro x y hxy
  simpa using hxy

theorem free_locally_mem_length {n : Nat} {w u : Word}
    (hu : u ∈ free_cayley_graph_locally n true w) : u.length = w.length + 1 := by
  match w with
  | [] =>
    simp only [free_cayley_graph_locally, List.mem_map, List.mem_range] at hu
    obtain ⟨x, _, rfl⟩ := hu
    rfl
  | h :: t =>
    obtain ⟨x, _, _, rfl⟩ := free_locally_cons_mem.1 hu
    rfl

theorem free_locally_mem_letters {n : Nat} {w u : Word}
    (hw : ∀ x ∈ w, x < 2 * n)
    (hu : u ∈ free_cayley_graph_locally n true w) : ∀ x ∈ u, x < 2 * n := by
  match w with
  | [] =>
    simp only [free_cayley_graph_locally, List.mem_map, List.mem_range] at hu
    obtain ⟨x, hx, rfl⟩ := hu
    simpa using hx
  | h :: t =>
    obtain ⟨x, hx, _, rfl⟩ := free_locally_cons_mem.1 hu
    intro y hy
    rcases List.mem_cons.1 hy with rfl | hy
    · exact hx
    · exact hw y hy

/-- C4: on a non-empty word whose first letter is a valid letter, the free
local neighbour generator (left-extension mode) yields exactly 2n - 1
distinct words, each of the form x :: w for a letter x distinct from the
inverse of the first letter of w (hence of length one more, and never the
backtrack word); on the empty word it yields exactly the 2n single-letter
words. -/
theorem free_cayley_graph_locally_spec (n h : Nat) (t : Word) (hh : h < 2 * n) :
    (free_cayley_graph_locally n true (h :: t)).length = 2 * n - 1 ∧
    (free_cayley_graph_locally n true (h :: t)).Nodup ∧
    (∀ u ∈ free_cayley_graph_locally n true (h :: t),
       ∃ x, x < 2 * n ∧ x ≠ gen_to_inv n h ∧ u = x :: h :: t) ∧
    (∀ u ∈ free_cayley_graph_locally n true (h :: t), u.length = (h :: t).length + 1) ∧
    (gen_to_inv n h :: h :: t) ∉ free_cayley_graph_locally n true (h :: t) ∧
    free_cayley_graph_locally n true [] = (List.range (2 * n)).map (fun x => [x]) := by
  refine ⟨free_locally_cons_length t hh, free_locally_cons_nodup t,
    fun u hu => free_locally_cons_mem.1 hu,
    fun u hu => free_locally_mem_length hu, ?_, rfl⟩
  intro hmem
  obtain ⟨x, _, hne, hx⟩ := free_locally_cons_mem.1 hmem
  injection hx with h1 _
  exact hne h1.symm

/-- Witness for C4: the one-generator group at the word (0,), where the only
free neighbour is (0, 0). -/
theorem free_cayley_graph_locally_spec_witness :
    (free_cayley_graph_locally 1 true [0]).length = 2 * 1 - 1 ∧
    (free_cayley_graph_locally 1 true [0]).Nodup ∧
    (∀ u ∈ free_cayley_graph_locally 1 true [0],
       ∃ x, x < 2 * 1 ∧ x ≠ gen_to_inv 1 0 ∧ u = x :: [0]) ∧
    (∀ u ∈ free_cayley_graph_locally 1 true [0], u.length = ([0] : Word).length + 1) ∧
    (gen_to_inv 1 0 :: [0]) ∉ free_cayley_graph_locally 1 true [0] ∧
    free_cayley_graph_locally 1 true [] = (List.range (2 * 1)).map (fun x => [x]) :=
  free_cayley_graph_locally_spec 1 0 [] (by decide)

theorem level_mem_length {n : Nat} : ∀ k, ∀ w ∈ free_cayley_graph_level n k, w.length = k := by
  intro k
  induction k with
  | zero =>
    intro w hw
    simp only [free_cayley_graph_level, List.mem_singleton] at hw
    simp [hw]
  | succ k ih =>
    intro w hw
    simp only [free_cayley_graph_level, List.mem_flatMap] at hw
    obtain ⟨v, hv, hwv⟩ := hw
    rw [free_locally_mem_length hwv, ih v hv]

theorem level_mem_letters {n : Nat} : ∀ k, ∀ w ∈ free_cayley_graph_level n k, ∀ x ∈ w, x < 2 * n := by
  intro k
  induction k with
  | zero =>
    intro w hw
    simp only [free_cayley_graph_level, List.mem_singleton] at hw
    simp [hw]
  | succ k ih =>
    intro w hw
    simp only [free_cayley_graph_level, List.mem_flatMap] at hw
    obtain ⟨v, hv, hwv⟩ := hw
    exact free_locally_mem_letters (ih v hv) hwv

theorem flatMap_const_length {α β : Type} (c : Nat) :
    ∀ (l : List α) (f : α → List β), (∀ a ∈ l, (f a).length = c) →
      (l.flatMap f).length = l.length * c := by
  intro l f h
  induction l with
  | nil => simp
  | cons a l ih =>
    rw [List.flatMap_cons, List.length_append, h a (List.mem_cons_self a l),
      ih (fun b hb => h b (List.mem_cons_of_mem a hb))]
    simp [List.length_cons]
    ring

theorem level_succ_length {n : Nat} :
    ∀ k, (free_cayley_graph_level n (k+1)).length = 2 * n * (2 * n - 1) ^ k := by
  intro k
  induction k with
  | zero =>
    simp [free_cayley_graph_level, free_cayley_graph_locally]
  | succ k ih =>
    have hstep : ∀ w ∈ free_cayley_graph_level n (k+1),
        (free_cayley_graph_locally n true w).length = 2 * n - 1 := by
      intro w hw
      match w with
      | [] =>
        have := level_mem_length (n := n) (k+1) [] hw
        simp at this
      | h :: t =>
        have hh : h < 2 * n :=
          level_mem_letters (n := n) (k+1) (h :: t) hw h (List.mem_cons_self h t)
        exact free_locally_cons_length t hh
    have : (free_cayley_graph_level n (k+1+1)).length =
        (free_cayley_graph_level n (k+1)).length * (2 * n - 1) := by
      simp only [free_cayley_graph_level]
      exact flatMap_const_length (2 * n - 1) _ _ hstep
    rw [this, ih, pow_succ]
    ring

theorem countP_len_of_const {c k : Nat} :
    ∀ (l : List Word), (∀ a ∈ l, a.length = c) →
      l.countP (fun w => w.length == k) = if c = k then l.length else 0 := by
  intro l h
  induction l with
  | nil => simp
  | cons a l ih =>
    have ha : a.length = c := h a (List.mem_cons_self a l)
    have hl := ih (fun b hb => h b (List.mem_cons_of_mem a hb))
    rw [List.countP_cons, hl]
    by_cases hck : c = k
    · subst hck
      simp [ha]
    · have hne : (a.length == k) = false := by
        simp [ha, hck]
      simp [hne, hck]

theorem bfs_succ (n d : Nat) :
    free_cayley_graph_bfs n (d+1) =
      free_cayley_graph_bfs n d ++ free_cayley_graph_level n (d+1) := by
  unfold free_cayley_graph_bfs
  rw [List.range_succ, List.flatMap_append]
  simp

theorem bfs_mem_bounds {n d : Nat} {w : Word} (hw : w ∈ free_cayley_graph_bfs n d) :
    1 ≤ w.length ∧ w.length ≤ d := by
  unfold free_cayley_graph_bfs at hw
  rw [List.mem_flatMap] at hw
  obtain ⟨k, hk, hwk⟩ := hw
  rw [List.mem_range] at hk
  rw [level_mem_length (k+1) w hwk]
  omega

theorem bfs_countP {n : Nat} :
    ∀ depth k, 1 ≤ k → k ≤ depth →
      (free_cayley_graph_bfs n depth).countP (fun w => w.length == k) =
        2 * n * (2 * n - 1) ^ (k - 1) := by
  intro depth
  induction depth with
  | zero => intro k h1 h2; omega
  | succ d ih =>
    intro k h1 h2
    rw [bfs_succ, List.countP_append,
      countP_len_of_const _ (level_mem_length (d+1))]
    by_cases hk : k = d + 1
    · subst hk
      have hzero : (free_cayley_graph_bfs n d).countP (fun w => w.length == d + 1) = 0 := by
        refine List.countP_eq_zero.2 ?_
        intro w hw
        have := (bfs_mem_bounds hw).2
        simp only [beq_iff_eq]
        omega
      rw [hzero, if_pos rfl, level_succ_length]
      simp
    · rw [ih k h1 (by omega), if_neg (by omega)]
      omega

theorem pairwise_le_of_const {c : Nat} :
    ∀ (l : List Word), (∀ a ∈ l, a.length = c) →
      (l.map List.length).Pairwise (· ≤ ·) := by
  intro l h
  induction l with
  | nil => simp
  | cons a l ih =>
    rw [List.map_cons]
    refine List.Pairwise.cons ?_ (ih (fun b hb => h b (List.mem_cons_of_mem a hb)))
    intro m hm
    rw [List.mem_map] at hm
    obtain ⟨b, hb, rfl⟩ := hm
    rw [h a (List.mem_cons_self a l), h b (List.mem_cons_of_mem a hb)]

theorem bfs_sorted (n : Nat) :
    ∀ depth, List.Sorted (· ≤ ·) ((free_cayley_graph_bfs n depth).map List.length) := by
  intro depth
  induction depth with
  | zero => simp [free_cayley_graph_bfs]
  | succ d ih =>
    rw [bfs_succ, List.map_append]
    refine List.pairwise_append.2 ⟨ih, pairwise_le_of_const _ (level_mem_length (d+1)), ?_⟩
    intro a ha b hb
    rw [List.mem_map] at ha hb
    obtain ⟨wa, hwa, rfl⟩ := ha
    obtain ⟨wb, hwb, rfl⟩ := hb
    have h1 := (bfs_mem_bounds hwa).2
    have h2 := level_mem_length (d+1) wb hwb
    omega

/-- C3: for a GroupCache on n >= 1 generators, the free breadth-first search
of a given depth yields exactly 2n * (2n-1)^(k-1) words of length k for every
k between 1 and depth, and the lengths of the yielded words are non-decreasing
along the yielded sequence. -/
theorem free_cayley_graph_bfs_spec (n depth : Nat) (_hn : 1 ≤ n) :
    (∀ k, 1 ≤ k → k ≤ depth →
      (free_cayley_graph_bfs n depth).countP (fun w => w.length == k) =
        2 * n * (2 * n - 1) ^ (k - 1)) ∧
    List.Sorted (· ≤ ·) ((free_cayley_graph_bfs n depth).map List.length) :=
  ⟨fun k h1 h2 => bfs_countP depth k h1 h2, bfs_sorted n depth⟩

/-- Witness for C3: the free group on two generators explored to depth 3 has
exactly 36 = 4 * 3^2 words of length 3. -/
theorem free_cayley_graph_bfs_spec_witness :
    (free_cayley_graph_bfs 2 3).countP (fun w => w.length == 3) =
      2 * 2 * (2 * 2 - 1) ^ (3 - 1) :=
  (free_cayley_graph_bfs_spec 2 3 (by decide)).1 3 (by decide) (by decide)

/-- C1 (code bug evaluation): on any non-empty word, iterating
cayley_graph_locally raises NameError, because line 171 of cayley.py calls
is_reduced_from_left as a bare name with no module-level definition; only the
empty-word branch works, yielding the 2n single-letter words. The claimed
reduced-neighbour behaviour is therefore unreachable for non-empty words. -/
theorem cayley_graph_locally_raises :
    cayley_graph_locally 1 [0] = Except.error "NameError" ∧
    cayley_graph_locally 1 [] = Except.ok [[0], [1]] :=
  ⟨rfl, rfl⟩

/-- C6: word evaluation maps the empty word to the exact 2x2 identity matrix
and satisfies evaluate (x :: w) = generators[x] * evaluate w, the first letter
acting leftmost. -/
theorem evaluate_spec {K : Type} [Field K] (generators : List (Mat2 K))
    (x : Nat) (w : Word) :
    evaluate generators ([] : Word) = (⟨1, 0, 0, 1⟩ : Mat2 K) ∧
    evaluate generators (x :: w) =
      (all_generators generators).getD x 1 * evaluate generators w :=
  ⟨rfl, rfl⟩

/-- C9: when the lower-left entry of the evaluated matrix is zero the
isometric circle is the infinite sentinel and the sampler skips the word
without failing; otherwise it is the pair (-d/c, 1/|c|); in particular the
single-letter word of the generator [[2,0],[0,1/2]] yields the sentinel. -/
theorem isometric_circle_spec {K : Type} [LinearOrderedField K]
    (generators : List (Mat2 K)) (w : Word) (rest : List Word) :
    ((evaluate generators w).c = 0 →
      isometric_circle generators w = none ∧
      coloured_isometric_circles generators (w :: rest) =
        coloured_isometric_circles generators rest) ∧
    ((evaluate generators w).c ≠ 0 →
      isometric_circle generators w =
        some (-(evaluate generators w).d / (evaluate generators w).c,
              1 / |(evaluate generators w).c|)) ∧
    isometric_circle [scaling_generator] [0] = none := by
  refine ⟨?_, ?_, ?_⟩
  · intro hc
    have hnone : isometric_circle generators w = none := by
      unfold isometric_circle
      rw [if_pos hc]
    refine ⟨hnone, ?_⟩
    unfold coloured_isometric_circles
    rw [List.filterMap_cons, hnone]
    simp
  · intro hc
    unfold isometric_circle
    rw [if_neg hc, one_div, abs_inv, ← one_div]
  · norm_num [isometric_circle, evaluate, all_generators, simple_inv, simple_det,
      scaling_generator]

/-- Witness for C9: the scaling generator [[2,0],[0,1/2]] evaluated at the
word (0,) has zero lower-left entry, so the circle is the sentinel and the
sampler record list skips the word. -/
theorem isometric_circle_spec_witness :
    isometric_circle [scaling_generator] [0] = none ∧
    coloured_isometric_circles [scaling_generator] [[0]] =
      coloured_isometric_circles [scaling_generator] [] :=
  (isometric_circle_spec [scaling_generator] [0] []).1
    (by norm_num [evaluate, all_generators, scaling_generator])

theorem mat2_mul_assoc {K : Type} [CommRing K] (M N P : Mat2 K) :
    M * N * P = M * (N * P) := by
  rw [Mat2.eq_iff]
  refine ⟨?_, ?_, ?_, ?_⟩ <;> simp <;> ring

theorem mat2_one_mul {K : Type} [CommRing K] (M : Mat2 K) : 1 * M = M := by
  rw [Mat2.eq_iff]
  refine ⟨?_, ?_, ?_, ?_⟩ <;> simp

theorem mat2_mul_one {K : Type} [CommRing K] (M : Mat2 K) : M * 1 = M := by
  rw [Mat2.eq_iff]
  refine ⟨?_, ?_, ?_, ?_⟩ <;> simp

theorem mul_simple_inv {K : Type} [Field K] (M : Mat2 K) (h : simple_det M ≠ 0) :
    M * simple_inv M = 1 := by
  rw [Mat2.eq_iff]
  unfold simple_det at h
  refine ⟨?_, ?_, ?_, ?_⟩ <;> simp [simple_inv, simple_det] <;> field_simp <;> ring

theorem simple_inv_mul {K : Type} [Field K] (M : Mat2 K) (h : simple_det M ≠ 0) :
    simple_inv M * M = 1 := by
  rw [Mat2.eq_iff]
  unfold simple_det at h
  refine ⟨?_, ?_, ?_, ?_⟩ <;> simp [simple_inv, simple_det] <;> field_simp <;> ring

theorem getD_mem {α : Type} (l : List α) (d : α) {x : Nat} (hx : x < l.length) :
    l.getD x d ∈ l := by
  rw [List.getD_eq_getElem _ _ hx]
  exact List.getElem_mem hx

theorem all_generators_getD_low {K : Type} [Field K] (gens : List (Mat2 K)) {x : Nat}
    (hx : x < gens.length) :
    (all_generators gens).getD x 1 = gens.getD x 1 := by
  unfold all_generators
  exact List.getD_append _ _ _ _ hx

theorem all_generators_getD_high {K : Type} [Field K] (gens : List (Mat2 K)) {x : Nat}
    (h1 : gens.length ≤ x) (h2 : x < 2 * gens.length) :
    (all_generators gens).getD x 1 = simple_inv (gens.getD (x - gens.length) 1) := by
  unfold all_generators
  rw [List.getD_append_right _ _ _ _ h1]
  have hlt : x - gens.length < (gens.map simple_inv).length := by
    rw [List.length_map]; omega
  rw [List.getD_eq_getElem _ _ hlt, List.getElem_map,
    ← List.getD_eq_getElem gens 1 (show x - gens.length < gens.length by omega)]

theorem gen_pair_mul {K : Type} [Field K] (gens : List (Mat2 K))
    (hdet : ∀ M ∈ gens, simple_det M ≠ 0) {x : Nat} (hx : x < 2 * gens.length) :
    (all_generators gens).getD x 1 *
      (all_generators gens).getD (gen_to_inv gens.length x) 1 = 1 := by
  by_cases h : x < gens.length
  · rw [all_generators_getD_low gens h]
    have hinv : gen_to_inv gens.length x = x + gens.length := by
      rw [gen_to_inv_eq hx, if_pos h]
    rw [hinv, all_generators_getD_high gens (by omega) (by omega),
      show x + gens.length - gens.length = x by omega]
    exact mul_simple_inv _ (hdet _ (getD_mem gens 1 h))
  · rw [all_generators_getD_high gens (by omega) hx]
    have hinv : gen_to_inv gens.length x = x - gens.length := by
      rw [gen_to_inv_eq hx, if_neg h]
    rw [hinv, all_generators_getD_low gens (by omega)]
    exact simple_inv_mul _ (hdet _ (getD_mem gens 1 (by omega)))

theorem evaluate_append {K : Type} [Field K] (gens : List (Mat2 K)) :
    ∀ u v : Word, evaluate gens (u ++ v) = evaluate gens u * evaluate gens v := by
  intro u v
  induction u with
  | nil =>
    show evaluate gens v = evaluate gens [] * evaluate gens v
    rw [show evaluate gens [] = (1 : Mat2 K) from rfl, mat2_one_mul]
  | cons a u ih =>
    show (all_generators gens).getD a 1 * evaluate gens (u ++ v) = _
    rw [ih]
    show _ = (all_generators gens).getD a 1 * evaluate gens u * evaluate gens v
    rw [mat2_mul_assoc]

theorem inv_word_cons (n x : Nat) (w : Word) :
    inv_word n (x :: w) = inv_word n w ++ [gen_to_inv n x] := by
  simp [inv_word]

theorem evaluate_single {K : Type} [Field K] (gens : List (Mat2 K)) (y : Nat) :
    evaluate gens [y] = (all_generators gens).getD y 1 := by
  show (all_generators gens).getD y 1 * evaluate gens [] = _
  rw [show evaluate gens [] = (1 : Mat2 K) from rfl, mat2_mul_one]

/-- C7: over an exact field, if every generator has nonzero determinant then
for every word over the 2n-letter alphabet the evaluated matrix of the word
times the evaluated matrix of its inverse word is exactly the identity. -/
theorem evaluate_inv_word_spec {K : Type} [Field K] (generators : List (Mat2 K))
    (hdet : ∀ M ∈ generators, simple_det M ≠ 0) (w : Word)
    (hw : ∀ x ∈ w, x < 2 * generators.length) :
    evaluate generators w * evaluate generators (inv_word generators.length w) = 1 := by
  induction w with
  | nil =>
    show (1 : Mat2 K) * 1 = 1
    exact mat2_one_mul 1
  | cons x t ih =>
    have hx : x < 2 * generators.length := hw x (List.mem_cons_self x t)
    have ht : ∀ y ∈ t, y < 2 * generators.length :=
      fun y hy => hw y (List.mem_cons_of_mem x hy)
    rw [inv_word_cons, evaluate_append, evaluate_single,
      show evaluate generators (x :: t) =
        (all_generators generators).getD x 1 * evaluate generators t from rfl]
    calc (all_generators generators).getD x 1 * evaluate generators t *
          (evaluate generators (inv_word generators.length t) *
            (all_generators generators).getD (gen_to_inv generators.length x) 1)
        = (all_generators generators).getD x 1 *
            (evaluate generators t * evaluate generators (inv_word generators.length t) *
              (all_generators generators).getD (gen_to_inv generators.length x) 1) := by
          simp only [mat2_mul_assoc]
      _ = 1 := by
          rw [ih ht, mat2_one_mul]
          exact gen_pair_mul generators hdet hx

/-- Witness for C7: the rational generator [[0,1],[-1,0]] and the word (0,1),
whose inverse word multiplies back to the identity. -/
theorem evaluate_inv_word_spec_witness :
    evaluate sample_generators [0, 1] *
      evaluate sample_generators (inv_word sample_generators.length [0, 1]) = 1 :=
  evaluate_inv_word_spec sample_generators
    (by norm_num [sample_generators, simple_det]) [0, 1]
    (by norm_num [sample_generators])

theorem rand_choice_mem {α : Type} (r : Nat) {l : List α} (hl : l ≠ []) :
    ∃ a ∈ l, rand_choice r l = some a := by
  match l with
  | [] => exact absurd rfl hl
  | a :: t =>
    have hpos : 0 < (a :: t).length := by simp
    have hlt : r % (a :: t).length < (a :: t).length := Nat.mod_lt r hpos
    exact ⟨(a :: t).getD (r % (a :: t).length) a,
      getD_mem (a :: t) a hlt, rfl⟩

theorem not_reduced_of_relator {relators : List Word} {w r : Word}
    (hr : r ∈ relators) (hpre : w.take r.length = r) :
    is_reduced_from_left relators w = false := by
  unfold is_reduced_from_left
  have : relators.any (fun r => w.take r.length == r) = true :=
    List.any_eq_true.2 ⟨r, hr, by simp [hpre]⟩
  simp [this]

theorem reduced_iff_no_relator_start {relators : List Word} {w : Word} :
    is_reduced_from_left relators w = true ↔
      ∀ r ∈ relators, w.take r.length ≠ r := by
  unfold is_reduced_from_left
  rw [Bool.not_eq_true', List.any_eq_false]
  constructor
  · intro hall r hr
    have := hall r hr
    simpa using this
  · intro hall r hr
    simpa using hall r hr

theorem mem_relator_closure_nil {n : Nat} {r : Word} :
    r ∈ relator_closure n [] ↔
      ∃ g, g < n ∧ (r = [g, gen_to_inv n g] ∨ r = [gen_to_inv n g, g]) := by
  simp [relator_closure, List.mem_flatMap, List.mem_range]

theorem not_reduced_default_iff {n x h : Nat} (t : Word) (hx : x < 2 * n) :
    is_reduced_from_left (relator_closure n []) (x :: h :: t) = false ↔
      h = gen_to_inv n x := by
  constructor
  · intro hred
    have hnot : ¬ is_reduced_from_left (relator_closure n []) (x :: h :: t) = true := by
      simp [hred]
    rw [reduced_iff_no_relator_start] at hnot
    push_neg at hnot
    obtain ⟨r, hr, hpre⟩ := hnot
    obtain ⟨g, hg, hform⟩ := mem_relator_closure_nil.1 hr
    rcases hform with rfl | rfl
    · simp at hpre
      obtain ⟨h1, h2⟩ := hpre
      subst h1
      exact h2
    · simp at hpre
      obtain ⟨h1, h2⟩ := hpre
      subst h2
      rw [h1, gen_to_inv_invol (by omega)]
  · intro hh
    refine not_reduced_of_relator (w := x :: h :: t) (r := [x, gen_to_inv n x])
      (mem_relator_closure_nil.2 ?_) (by simp [hh])
    by_cases hxn : x < n
    · exact ⟨x, hxn, Or.inl rfl⟩
    · refine ⟨x - n, by omega, Or.inr ?_⟩
      have h1 : gen_to_inv n (x - n) = x := by
        rw [gen_to_inv_eq (by omega), if_pos (by omega)]
        omega
      have h2 : gen_to_inv n x = x - n := by
        rw [gen_to_inv_eq hx, if_neg hxn]
      rw [h1, h2]

theorem reduced_default_iff {n x h : Nat} (t : Word) (hx : x < 2 * n) :
    is_reduced_from_left (relator_closure n []) (x :: h :: t) = true ↔
      h ≠ gen_to_inv n x := by
  rw [← Bool.not_eq_false]
  exact not_iff_not.2 (not_reduced_default_iff t hx)

theorem random_walk_nil_step {n : Nat} (hn : 1 ≤ n) (relators : List Word) (r : Nat) :
    ∃ x, x < 2 * n ∧ random_walk_locally n relators r [] = some [x] := by
  have hne : ((List.range (2*n)).map (fun w => ([w] : Word))) ≠ [] := by
    simp
    omega
  obtain ⟨a, ha, hchoice⟩ := rand_choice_mem r hne
  rw [List.mem_map] at ha
  obtain ⟨x, hx, rfl⟩ := ha
  exact ⟨x, List.mem_range.1 hx, hchoice⟩

theorem random_walk_default_step {n : Nat} (hn : 1 ≤ n) (r : Nat) (w : Word)
    (hw : ∀ y ∈ w, y < 2 * n) :
    ∃ x, x < 2 * n ∧
      random_walk_locally n (relator_closure n []) r w = some (x :: w) := by
  match w with
  | [] => exact random_walk_nil_step hn _ r
  | h :: t =>
    have hh : h < 2 * n := hw h (List.mem_cons_self h t)
    have heq : random_walk_locally n (relator_closure n []) r (h :: t) =
        rand_choice r ((List.range (2*n)).filterMap (fun x =>
          if is_reduced_from_left (relator_closure n []) (x :: h :: t)
          then some (x :: h :: t) else none)) := rfl
    have hself : is_reduced_from_left (relator_closure n []) (h :: h :: t) = true :=
      (reduced_default_iff t hh).2 (fun hc => gen_to_inv_ne_self hn hh hc.symm)
    have hmem : (h :: h :: t) ∈ (List.range (2*n)).filterMap (fun x =>
        if is_reduced_from_left (relator_closure n []) (x :: h :: t)
        then some (x :: h :: t) else none) := by
      refine List.mem_filterMap.2 ⟨h, List.mem_range.2 hh, ?_⟩
      rw [if_pos hself]
    obtain ⟨a, ha, hchoice⟩ := rand_choice_mem r (List.ne_nil_of_mem hmem)
    rw [List.mem_filterMap] at ha
    obtain ⟨x, hx, hfx⟩ := ha
    by_cases hc : is_reduced_from_left (relator_closure n []) (x :: h :: t) = true
    · rw [if_pos hc] at hfx
      obtain rfl := Option.some.injEq .. ▸ hfx
      exact ⟨x, List.mem_range.1 hx, by rw [heq, hchoice, hfx]⟩
    · rw [if_neg hc] at hfx
      exact absurd hfx (by simp)

theorem free_random_walk_step {n : Nat} (hn : 1 ≤ n) (r : Nat) (w : Word)
    (hw : ∀ y ∈ w, y < 2 * n) :
    ∃ x, x < 2 * n ∧ free_random_walk_locally n true r w = some (x :: w) := by
  match w with
  | [] =>
    have hne : ((List.range (2*n)).map (fun w => ([w] : Word))) ≠ [] := by
      simp
      omega
    obtain ⟨a, ha, hchoice⟩ := rand_choice_mem r hne
    rw [List.mem_map] at ha
    obtain ⟨x, hx, rfl⟩ := ha
    exact ⟨x, List.mem_range.1 hx, hchoice⟩
  | h :: t =>
    have hh : h < 2 * n := hw h (List.mem_cons_self h t)
    have heq : free_random_walk_locally n true r (h :: t) =
        (rand_choice r ((List.range (2*n)).filter (fun x => x != gen_to_inv n h))).map
          (fun lab => lab :: h :: t) := rfl
    have hmem : h ∈ (List.range (2*n)).filter (fun x => x != gen_to_inv n h) := by
      rw [List.mem_filter]
      refine ⟨List.mem_range.2 hh, ?_⟩
      simp only [bne_iff_ne, ne_eq]
      exact fun hc => gen_to_inv_ne_self hn hh hc.symm
    obtain ⟨lab, hlab, hchoice⟩ := rand_choice_mem r (List.ne_nil_of_mem hmem)
    rw [List.mem_filter] at hlab
    refine ⟨lab, List.mem_range.1 hlab.1, ?_⟩
    rw [heq, hchoice]
    rfl

theorem free_walk_spec {n : Nat} (hn : 1 ≤ n) (rand : Nat → Nat) :
    ∀ (s : Nat) (w : Word) (k0 : Nat), (∀ y ∈ w, y < 2 * n) →
      ∃ l, free_cayley_graph_mc_walk n true rand w k0 s = some l ∧ l.length = s ∧
        ∀ u ∈ l, w.length + 1 ≤ u.length ∧ u.length ≤ w.length + s := by
  intro s
  induction s with
  | zero =>
    intro w k0 _
    exact ⟨[], rfl, rfl, by simp⟩
  | succ s ih =>
    intro w k0 hw
    obtain ⟨x, hx, hstep⟩ := free_random_walk_step hn (rand k0) w hw
    have hw2 : ∀ y ∈ x :: w, y < 2 * n := by
      intro y hy
      rcases List.mem_cons.1 hy with rfl | hy
      · exact hx
      · exact hw y hy
    obtain ⟨l, hl, hlen, hbounds⟩ := ih (x :: w) (k0 + 1) hw2
    refine ⟨(x :: w) :: l, ?_, by simp [hlen], ?_⟩
    · simp only [free_cayley_graph_mc_walk, Option.bind_eq_bind]
      rw [hstep]
      simp [hl]
    · intro u hu
      rcases List.mem_cons.1 hu with rfl | hu
      · simp only [List.length_cons]
        omega
      · have := hbounds u hu
        simp only [List.length_cons] at this
        omega

theorem free_runs_spec {n : Nat} (hn : 1 ≤ n) (rand : Nat → Nat) (depth : Nat) :
    ∀ c, ∃ l, free_cayley_graph_mc_runs n true rand depth c = some l ∧
      l.length = c * depth ∧ ∀ u ∈ l, 1 ≤ u.length ∧ u.length ≤ depth := by
  intro c
  induction c with
  | zero => exact ⟨[], rfl, by simp, by simp⟩
  | succ c ih =>
    obtain ⟨prev, hprev, hprevlen, hprevbounds⟩ := ih
    obtain ⟨walk, hwalk, hwalklen, hwalkbounds⟩ :=
      free_walk_spec hn rand depth [] (c * depth) (by simp)
    refine ⟨prev ++ walk, ?_, ?_, ?_⟩
    · simp only [free_cayley_graph_mc_runs, Option.bind_eq_bind]
      rw [hprev]
      simp [hwalk]
    · rw [List.length_append, hprevlen, hwalklen]
      ring
    · intro u hu
      rcases List.mem_append.1 hu with hu | hu
      · exact hprevbounds u hu
      · have := hwalkbounds u hu
        simpa using this

theorem mc_walk_true_spec {n : Nat} (hn : 1 ≤ n) (rand : Nat → Nat) (depth : Nat) :
    ∀ (s : Nat) (w : Word) (k0 idx : Nat), (∀ y ∈ w, y < 2 * n) →
      ∃ l, cayley_graph_mc_walk n (relator_closure n []) rand true depth w k0 idx s = some l ∧
        l.length = s := by
  intro s
  induction s with
  | zero =>
    intro w k0 idx _
    exact ⟨[], rfl, rfl⟩
  | succ s ih =>
    intro w k0 idx hw
    obtain ⟨x, hx, hstep⟩ := random_walk_default_step hn (rand (k0 + idx)) w hw
    have hw2 : ∀ y ∈ x :: w, y < 2 * n := by
      intro y hy
      rcases List.mem_cons.1 hy with rfl | hy
      · exact hx
      · exact hw y hy
    obtain ⟨l, hl, hlen⟩ := ih (x :: w) k0 (idx + 1) hw2
    refine ⟨(x :: w) :: l, ?_, by simp [hlen]⟩
    simp only [cayley_graph_mc_walk, Option.bind_eq_bind]
    rw [hstep]
    simp [hl]

theorem mc_runs_true_spec {n : Nat} (hn : 1 ≤ n) (rand : Nat → Nat) (depth : Nat) :
    ∀ c, ∃ l, cayley_graph_mc_runs n (relator_closure n []) rand depth true c = some l ∧
      l.length = c * depth := by
  intro c
  induction c with
  | zero => exact ⟨[], rfl, by simp⟩
  | succ c ih =>
    obtain ⟨prev, hprev, hprevlen⟩ := ih
    obtain ⟨walk, hwalk, hwalklen⟩ :=
      mc_walk_true_spec hn rand depth depth [] (c * depth) 0 (by simp)
    refine ⟨prev ++ walk, ?_, ?_⟩
    · simp only [cayley_graph_mc_runs, Option.bind_eq_bind]
      rw [hprev]
      simp [hwalk]
    · rw [List.length_append, hprevlen, hwalklen]
      ring

/-- C2 (code bug evaluation): the free Monte-Carlo search yields exactly
count * depth words with lengths in the range 1..depth, and the reduced
Monte-Carlo search with yield_shorter true also yields count * depth words;
but with yield_shorter false it yields nothing at all (rather than the
claimed count words of length depth), because the guard n == depth on line
239 of cayley.py never holds for a loop index n ranging over range(depth):
the concrete run with depth = count = 1 yields the empty sequence. -/
theorem monte_carlo_counts (n : Nat) (hn : 1 ≤ n) (rand : Nat → Nat)
    (depth count : Nat) :
    (∃ l, free_cayley_graph_mc n true rand depth count = some l ∧
       l.length = count * depth ∧ ∀ u ∈ l, 1 ≤ u.length ∧ u.length ≤ depth) ∧
    (∃ l, cayley_graph_mc n (relator_closure n []) rand depth count true = some l ∧
       l.length = count * depth) ∧
    cayley_graph_mc 1 (relator_closure 1 []) (fun k => k) 1 1 false = some [] :=
  ⟨free_runs_spec hn rand depth count, mc_runs_true_spec hn rand depth count, by decide⟩

/-- Witness for C2: the one-generator group, one walk of depth one, with
yield_shorter false, yields the empty word sequence. -/
theorem monte_carlo_counts_witness :
    cayley_graph_mc 1 (relator_closure 1 []) (fun k => k) 1 1 false = some [] :=
  (monte_carlo_counts 1 (by decide) (fun k => k) 1 1).2.2

/-- Counterexample for C10 as stated: in the two-generator group with the
single user relator (0,), some letter gives a reduced single-letter extension
of the empty word (letter 1 does), yet random_walk_locally on the empty word
can return the word (0,), which fails is_reduced_from_left: the empty-word
branch of the source chooses among all 2n letters without consulting the
relators. -/
theorem random_walk_locally_counterexample :
    is_reduced_from_left (relator_closure 2 [[0]]) [1] = true ∧
    random_walk_locally 2 (relator_closure 2 [[0]]) 0 [] = some [0] ∧
    is_reduced_from_left (relator_closure 2 [[0]]) [0] = false := by
  decide

/-- C10 amended: for every NON-EMPTY word, random_walk_locally returns a
reduced one-letter left extension whenever one exists, and fails (the
random.choice of an empty list raises IndexError, modelled none) when no
letter gives a reduced extension; on the empty word it returns a single-letter
word chosen among all 2n letters without consulting the relators. -/
theorem random_walk_locally_amended (n : Nat) (relators : List Word) (r : Nat)
    (h : Nat) (t : Word) :
    ((∃ x, x < 2 * n ∧ is_reduced_from_left relators (x :: h :: t) = true) →
      ∃ x, x < 2 * n ∧ is_reduced_from_left relators (x :: h :: t) = true ∧
        random_walk_locally n relators r (h :: t) = some (x :: h :: t) ∧
        (x :: h :: t).length = (h :: t).length + 1) ∧
    ((∀ x, x < 2 * n → is_reduced_from_left relators (x :: h :: t) = false) →
      random_walk_locally n relators r (h :: t) = none) ∧
    (1 ≤ n → ∃ x, x < 2 * n ∧ random_walk_locally n relators r [] = some [x]) := by
  have heq : random_walk_locally n relators r (h :: t) =
      rand_choice r ((List.range (2*n)).filterMap (fun x =>
        if is_reduced_from_left relators (x :: h :: t)
        then some (x :: h :: t) else none)) := rfl
  refine ⟨?_, ?_, fun hn => random_walk_nil_step hn relators r⟩
  · rintro ⟨x0, hx0, hred0⟩
    have hmem : (x0 :: h :: t) ∈ (List.range (2*n)).filterMap (fun x =>
        if is_reduced_from_left relators (x :: h :: t)
        then some (x :: h :: t) else none) := by
      refine List.mem_filterMap.2 ⟨x0, List.mem_range.2 hx0, ?_⟩
      rw [if_pos hred0]
    obtain ⟨a, ha, hchoice⟩ := rand_choice_mem r (List.ne_nil_of_mem hmem)
    rw [List.mem_filterMap] at ha
    obtain ⟨x, hx, hfx⟩ := ha
    by_cases hc : is_reduced_from_left relators (x :: h :: t) = true
    · rw [if_pos hc] at hfx
      obtain rfl := Option.some.injEq .. ▸ hfx
      exact ⟨x, List.mem_range.1 hx, hc, by rw [heq, hchoice, hfx], rfl⟩
    · rw [if_neg hc] at hfx
      exact absurd hfx (by simp)
  · intro hall
    have hnil : (List.range (2*n)).filterMap (fun x =>
        if is_reduced_from_left relators (x :: h :: t)
        then some (x :: h :: t) else none) = [] := by
      refine List.filterMap_eq_nil_iff.2 ?_
      intro x hx
      rw [if_neg (by simp [hall x (List.mem_range.1 hx)])]
    rw [heq, hnil]
    rfl

/-- Witness for C10 amended: the one-generator group with user relator (0,0)
has no reduced left extension of the word (0,), so the walk step fails. -/
theorem random_walk_locally_amended_witness :
    random_walk_locally 1 (relator_closure 1 [[0, 0]]) 0 [0] = none :=
  (random_walk_locally_amended 1 (relator_closure 1 [[0, 0]]) 0 0 []).2.1 (by decide)
